import Mathlib

/-!
Verification of the delimited-files-to-Excel converter (`src/app.js`).

The development shallowly embeds the core of the program:

* the parsing phase of `tdsToExcel` (app.js, lines 134-147): decode bytes to
  text, split on newlines, trim each line, split on the caret delimiter,
  and right-pad every row to the maximum observed cell count;
* the stored-name derivation of the `POST /upload` handler (lines 176-182);
* the artifact store operated on by the routes `GET /output/:filename`,
  `GET /download-all`, `DELETE /cleanup`, modelled as an association list of
  file names to blobs (the `/tmp/output` directory's contents);
* the batch-conversion loop of `POST /upload` (lines 167-214).

Text is modelled as `List Char` (the result of `buffer.toString('utf8')`).
-/

/-- JavaScript `String.prototype.split` with a single-character separator,
on decoded text. It always returns a non-empty list; splitting the empty
string yields `[[]]`, and a trailing separator yields a trailing empty
fragment, exactly as in JS. -/
def splitOn (c : Char) : List Char → List (List Char)
  | [] => [[]]
  | x :: xs =>
    if x = c then [] :: splitOn c xs
    else
      match splitOn c xs with
      | [] => [[x]]
      | h :: t => (x :: h) :: t

/-- The characters stripped by JavaScript `String.prototype.trim`:
ECMAScript WhiteSpace and LineTerminator code points. -/
def isJsWhitespace (c : Char) : Bool :=
  c = ' ' || c = '\t' || c = '\n' || c = '\x0b' || c = '\x0c' || c = '\r' ||
  c = ' ' || c = ' ' || c = ' ' || c = ' ' || c = ' ' ||
  c = ' ' || c = ' ' || c = ' ' || c = ' ' || c = ' ' ||
  c = ' ' || c = ' ' || c = ' ' || c = ' ' || c = ' ' ||
  c = ' ' || c = ' ' || c = '　' || c = '﻿'

/-- JavaScript `String.prototype.trim`: drop leading and trailing
whitespace characters. -/
def jsTrim (s : List Char) : List Char :=
  ((s.dropWhile isJsWhitespace).reverse.dropWhile isJsWhitespace).reverse

/-- JavaScript `Math.max(...xs)` restricted to natural numbers. The
program only applies it to the non-empty list of row lengths, so the
`[]` case (JS `-Infinity`) is unreachable and mapped to `0`. -/
def jsMaxNat : List Nat → Nat
  | [] => 0
  | x :: xs => xs.foldl max x

/-- The rows of `tdsToExcel` before padding (app.js line 135 and 138):
`data.split('\n')` then, per line, `line.trim().split('^')`. -/
def rawRows (data : List Char) : List (List (List Char)) :=
  (splitOn '\n' data).map (fun line => splitOn '^' (jsTrim line))

/-- `maxLen` of `tdsToExcel` (app.js line 139):
`Math.max(...rows.map(row => row.length))`. -/
def maxCellCount (data : List Char) : Nat :=
  jsMaxNat ((rawRows data).map List.length)

/-- The parsing phase of `tdsToExcel` (app.js lines 134-147): the padded
grid `paddedRows`. Each row is extended with empty-string cells
(`row.push('')`) until its length reaches `maxLen`. -/
def parseGrid (data : List Char) : List (List (List Char)) :=
  (rawRows data).map
    (fun row => row ++ List.replicate (maxCellCount data - row.length) [])

lemma le_foldl_max_init (l : List Nat) (b : Nat) : b ≤ l.foldl max b := by
  induction l generalizing b with
  | nil => exact Nat.le_refl b
  | cons x xs ih =>
    exact Nat.le_trans (Nat.le_max_left b x) (ih (max b x))

lemma le_foldl_max_of_mem (l : List Nat) (b y : Nat) (hy : y ∈ l) :
    y ≤ l.foldl max b := by
  induction l generalizing b with
  | nil => cases hy
  | cons x xs ih =>
    rcases List.mem_cons.mp hy with h | h
    · subst h
      exact Nat.le_trans (Nat.le_max_right b y) (le_foldl_max_init xs (max b y))
    · exact ih (max b x) h

lemma le_jsMaxNat (l : List Nat) (y : Nat) (hy : y ∈ l) : y ≤ jsMaxNat l := by
  cases l with
  | nil => cases hy
  | cons x xs =>
    rcases List.mem_cons.mp hy with h | h
    · subst h; exact le_foldl_max_init xs y
    · exact le_foldl_max_of_mem xs x y h

lemma splitOn_ne_nil (c : Char) (s : List Char) : splitOn c s ≠ [] := by
  cases s with
  | nil => simp [splitOn]
  | cons x xs =>
    simp only [splitOn]
    split
    · simp
    · split <;> simp

lemma rawRows_ne_nil (data : List Char) : rawRows data ≠ [] := by
  intro h
  exact splitOn_ne_nil '\n' data (by simpa [rawRows] using congrArg List.length h)

lemma rawRow_length_le (data : List Char) (r : List (List Char))
    (hr : r ∈ rawRows data) : r.length ≤ maxCellCount data :=
  le_jsMaxNat _ _ (List.mem_map_of_mem List.length hr)

/-- C1: every row of the parsed grid has the same length, equal to the
maximum cell count among the raw (unpadded) rows of the input lines; and
each grid row is the corresponding raw row right-padded with empty-string
cells — never truncated. -/
theorem tds_grid_rectangular (data : List Char) :
    (∀ row ∈ parseGrid data, row.length = maxCellCount data) ∧
    (∀ i : Nat, (parseGrid data)[i]? = ((rawRows data)[i]?).map
      (fun r => r ++ List.replicate (maxCellCount data - r.length) [])) := by
  constructor
  · intro row hrow
    rcases List.mem_map.mp hrow with ⟨r, hr, hpad⟩
    subst hpad
    have hle := rawRow_length_le data r hr
    simp [List.length_append, List.length_replicate, Nat.add_sub_cancel' hle]
  · intro i
    simp [parseGrid]

/-- C1 witness: the single row of the grid parsed from `"a^b"` has length
equal to the maximum cell count of that input. -/
theorem tds_grid_rectangular_witness :
    ([['a'], ['b']] : List (List Char)).length = maxCellCount "a^b".data :=
  (tds_grid_rectangular "a^b".data).1 [['a'], ['b']] (by decide)

/-- C3: the concrete input `"a^b^c\nd^e\n"` parses to the three-row grid
`[["a","b","c"],["d","e",""],["","",""]]`: the ragged second row is padded
to width 3, and the trailing newline contributes a final empty line that
parses to `[""]` and pads to `["","",""]`. -/
theorem tds_concrete_scenario :
    parseGrid "a^b^c\nd^e\n".data =
      [["a".data, "b".data, "c".data],
       ["d".data, "e".data, []],
       [[], [], []]] := by
  rfl

/-- C9: the parser never produces a zero-row grid — every input yields at
least one row, and the empty input yields exactly one row holding a single
empty-string cell. -/
theorem tds_grid_never_empty :
    (∀ data : List Char, 0 < (parseGrid data).length) ∧
    parseGrid ([] : List Char) = [[[]]] := by
  constructor
  · intro data
    have h : rawRows data ≠ [] := rawRows_ne_nil data
    simpa [parseGrid] using List.length_pos.mpr h
  · rfl

/-- First index of a character in a character list, if present (used to
express JavaScript `lastIndexOf` via the reversed list). -/
def indexOfFirst (c : Char) : List Char → Option Nat
  | [] => none
  | x :: xs => if x = c then some 0 else (indexOfFirst c xs).map (· + 1)

/-- JavaScript `String.prototype.lastIndexOf` for a single character:
the index of the last occurrence, or `-1` when absent. -/
def jsLastIndexOf (c : Char) (s : List Char) : Int :=
  match indexOfFirst c s.reverse with
  | none => -1
  | some i => (s.length : Int) - 1 - (i : Int)

/-- The stored-name derivation of the `POST /upload` handler (app.js lines
176-182): if the original name contains a dot, take
`substring(0, lastIndexOf('.'))` and append `".xlsx"`; otherwise append
`".xlsx"` to the whole name. JavaScript `substring(0, e)` clamps a
negative `e` to `0`, which `Int.toNat` reproduces. -/
def deriveStoredName (name : List Char) : List Char :=
  if name.contains '.' then
    name.take (jsLastIndexOf '.' name).toNat ++ ".xlsx".data
  else
    name ++ ".xlsx".data

lemma indexOfFirst_append_cons (c : Char) (l r : List Char) (hl : c ∉ l) :
    indexOfFirst c (l ++ c :: r) = some l.length := by
  induction l with
  | nil => simp [indexOfFirst]
  | cons x xs ih =>
    have hx : x ≠ c := fun h => hl (h ▸ List.mem_cons_self x xs)
    have hxs : c ∉ xs := fun h => hl (List.mem_cons_of_mem x h)
    simp [indexOfFirst, hx, ih hxs]

lemma jsLastIndexOf_split (base ext : List Char) (hext : '.' ∉ ext) :
    jsLastIndexOf '.' (base ++ '.' :: ext) = (base.length : Int) := by
  have hrev : (base ++ '.' :: ext).reverse = ext.reverse ++ '.' :: base.reverse := by
    simp
  have hidx : indexOfFirst '.' ((base ++ '.' :: ext).reverse) = some ext.length := by
    rw [hrev]
    simpa using indexOfFirst_append_cons '.' ext.reverse base.reverse
      (fun h => hext (List.mem_reverse.mp h))
  simp only [jsLastIndexOf, hidx, List.length_append, List.length_cons]
  push_cast
  omega

lemma contains_of_mem_chars (s : List Char) (c : Char) (h : c ∈ s) :
    s.contains c = true := by
  simpa [List.contains] using h

lemma deriveStoredName_split (base ext : List Char) (hext : '.' ∉ ext) :
    deriveStoredName (base ++ '.' :: ext) = base ++ ".xlsx".data := by
  have hc : (base ++ '.' :: ext).contains '.' = true :=
    contains_of_mem_chars _ _ (by simp)
  rw [deriveStoredName, if_pos hc, jsLastIndexOf_split base ext hext]
  simp [List.take_left]

/-- C8: the stored name strips the trailing extension (everything from the
last dot onward) and appends `".xlsx"`; with no dot present it simply
appends `".xlsx"`. Concretely, `"report.txt"` maps to `"report.xlsx"` and
`"README"` maps to `"README.xlsx"`. -/
theorem stored_name_derivation :
    (∀ base ext : List Char, '.' ∉ ext →
      deriveStoredName (base ++ '.' :: ext) = base ++ ".xlsx".data) ∧
    (∀ name : List Char, name.contains '.' = false →
      deriveStoredName name = name ++ ".xlsx".data) ∧
    deriveStoredName "report.txt".data = "report.xlsx".data ∧
    deriveStoredName "README".data = "README.xlsx".data := by
  refine ⟨deriveStoredName_split, fun name h => ?_, by rfl, by rfl⟩
  rw [deriveStoredName, if_neg (by simp_all [List.contains])]

/-- C8 witness: instantiating the extension-stripping part at
`"report" ++ "." ++ "txt"` yields `"report.xlsx"`. -/
theorem stored_name_derivation_witness :
    deriveStoredName ("report".data ++ '.' :: "txt".data) =
      "report".data ++ ".xlsx".data :=
  stored_name_derivation.1 "report".data "txt".data (by decide)

/-- C10: a name whose only dot is its leading character derives to exactly
`".xlsx"`: the dot branch strips everything from the leading dot onward,
leaving an empty base. Concretely `".gitignore"` maps to `".xlsx"`. -/
theorem stored_name_leading_dot :
    (∀ rest : List Char, '.' ∉ rest →
      deriveStoredName ('.' :: rest) = ".xlsx".data) ∧
    deriveStoredName ".gitignore".data = ".xlsx".data := by
  refine ⟨fun rest h => ?_, by rfl⟩
  simpa using deriveStoredName_split [] rest h

/-- C10 witness: the general leading-dot rule applied to `".gitignore"`
(leading dot followed by the dot-free `"gitignore"`). -/
theorem stored_name_leading_dot_witness :
    deriveStoredName ('.' :: "gitignore".data) = ".xlsx".data :=
  stored_name_leading_dot.1 "gitignore".data (by decide)

/-- A file name in the output directory. -/
abbrev FileName := List Char

/-- The artifact store: the contents of the `/tmp/output` directory,
modelled as an association list from file names to blobs. File names are
unique in a directory; `putFile` maintains that. -/
abbrev Store (β : Type) := List (FileName × β)

/-- Filesystem lookup: `fs.existsSync` / reading the blob at a name. -/
def lookupFile {β : Type} (n : FileName) : Store β → Option β
  | [] => none
  | (m, b) :: st => if m = n then some b else lookupFile n st

/-- Filesystem deletion: `fs.unlinkSync` removes the entry at a name. -/
def eraseFile {β : Type} (n : FileName) (st : Store β) : Store β :=
  st.filter (fun e => e.1 ≠ n)

/-- Filesystem write: `XLSX.writeFile` to a path overwrites any existing
file of that name (last write wins). -/
def putFile {β : Type} (n : FileName) (b : β) (st : Store β) : Store β :=
  (n, b) :: eraseFile n st

/-- Result of the `GET /output/:filename` route: 404, or the blob sent
with a flag recording whether the transfer ran to completion. -/
inductive GetResult (β : Type)
  | notFound
  | sent (blob : β) (completed : Bool)
deriving DecidableEq

/-- The `GET /output/:filename` route (app.js lines 33-53): if the file
does not exist, 404; otherwise `res.download` streams it, and the callback
deletes the file only when the transfer reported no error (`if (!err)`).
`transferOk` models whether the transfer completed without error. -/
def getOnce {β : Type} (st : Store β) (name : FileName) (transferOk : Bool) :
    GetResult β × Store β :=
  match lookupFile name st with
  | none => (.notFound, st)
  | some b => (.sent b transferOk, if transferOk then eraseFile name st else st)

/-- The snapshot of artifact names taken by `fs.readdirSync(outputDir)`. -/
def snapshotNames {β : Type} (st : Store β) : List FileName :=
  st.map Prod.fst

/-- The archive-building loop of `GET /download-all` (app.js lines
102-109): for each snapshot name, if the file still exists at inclusion
time (`fs.existsSync`), its blob enters the archive and the name is
remembered for cleanup; a missing name is skipped. `st` is the store state
at inclusion time, which a concurrent request may have changed since the
snapshot. -/
def buildArchive {β : Type} (names : List FileName) (st : Store β) :
    List (FileName × β) :=
  names.filterMap (fun n => (lookupFile n st).map (fun b => (n, b)))

/-- The post-finalize cleanup of `GET /download-all` (app.js lines
112-122): unlink every remembered (included) file. -/
def archiveCleanup {β : Type} (included : List FileName) (st : Store β) :
    Store β :=
  included.foldl (fun s n => eraseFile n s) st

/-- The `GET /download-all` route without a concurrent interleaving (the
store at inclusion time is the store at snapshot time), app.js lines
56-128: empty directory gives a 404 and no archive; otherwise the archive
of every file is built and the included files are then deleted. -/
def downloadAll {β : Type} (st : Store β) :
    Except Unit (List (FileName × β)) × Store β :=
  let names := snapshotNames st
  if names.isEmpty then (.error (), st)
  else
    let included := buildArchive names st
    (.ok included, archiveCleanup (included.map Prod.fst) st)

/-- Result of the `DELETE /cleanup` route: the success JSON message, or
the 500 `Cleanup failed` response produced by the `catch`. -/
inductive CleanupResult
  | cleaned
  | failed500
deriving DecidableEq

/-- The deletion loop of `DELETE /cleanup` (app.js lines 219-222):
`files.forEach(file => fs.unlinkSync(...))` inside a single `try` block.
`unlinkFails n = true` models `fs.unlinkSync` throwing on `n`; the thrown
exception escapes the `forEach`, so the loop stops at the first failure
and the `catch` answers 500. -/
def cleanupLoop {β : Type} (unlinkFails : FileName → Bool) :
    List FileName → Store β → CleanupResult × Store β
  | [], st => (.cleaned, st)
  | n :: ns, st =>
    if unlinkFails n then (.failed500, st)
    else cleanupLoop unlinkFails ns (eraseFile n st)

/-- The `DELETE /cleanup` route (app.js lines 217-227): read the directory
and unlink each listed file. -/
def cleanupRoute {β : Type} (unlinkFails : FileName → Bool) (st : Store β) :
    CleanupResult × Store β :=
  cleanupLoop unlinkFails (snapshotNames st) st

lemma eraseFile_cons {β : Type} (m k : FileName) (b : β) (st : Store β) :
    eraseFile m ((k, b) :: st) =
      if k = m then eraseFile m st else (k, b) :: eraseFile m st := by
  by_cases h : k = m <;> simp [eraseFile, List.filter_cons, h]

lemma lookupFile_eraseFile {β : Type} (n m : FileName) (st : Store β) :
    lookupFile n (eraseFile m st) = if m = n then none else lookupFile n st := by
  induction st with
  | nil => simp [eraseFile, lookupFile]
  | cons e st ih =>
    obtain ⟨k, b⟩ := e
    rw [eraseFile_cons]
    by_cases hkm : k = m
    · rw [if_pos hkm, ih]
      by_cases hmn : m = n
      · simp [hmn]
      · have hkn : ¬k = n := fun h => hmn (hkm.symm.trans h)
        simp [hmn, lookupFile, hkn]
    · rw [if_neg hkm]
      by_cases hkn : k = n
      · subst hkn
        have hmn : ¬m = k := fun h => hkm h.symm
        simp [lookupFile, hmn]
      · simp [lookupFile, hkn, ih]

lemma lookupFile_putFile_self {β : Type} (n : FileName) (b : β) (st : Store β) :
    lookupFile n (putFile n b st) = some b := by
  simp [putFile, lookupFile]

lemma lookupFile_archiveCleanup {β : Type} (l : List FileName) (n : FileName)
    (st : Store β) :
    lookupFile n (archiveCleanup l st) =
      if n ∈ l then none else lookupFile n st := by
  induction l generalizing st with
  | nil => simp [archiveCleanup]
  | cons x xs ih =>
    show lookupFile n (archiveCleanup xs (eraseFile x st)) = _
    rw [ih, lookupFile_eraseFile]
    by_cases hx : x = n
    · simp [hx]
    · have hx' : ¬n = x := fun h => hx h.symm
      by_cases hxs : n ∈ xs <;> simp [hx, hx', hxs, List.mem_cons]

lemma mem_buildArchive {β : Type} (names : List FileName) (st : Store β)
    (n : FileName) (b : β) :
    (n, b) ∈ buildArchive names st ↔ n ∈ names ∧ lookupFile n st = some b := by
  simp only [buildArchive, List.mem_filterMap, Option.map_eq_some']
  constructor
  · rintro ⟨a, ha, c, hc, hab⟩
    obtain ⟨rfl, rfl⟩ : a = n ∧ c = b := Prod.mk.injEq .. ▸ hab
    exact ⟨ha, hc⟩
  · rintro ⟨hn, hb⟩
    exact ⟨n, hn, b, hb, rfl⟩

lemma lookupFile_of_mem_snapshot {β : Type} (st : Store β) (n : FileName)
    (h : n ∈ snapshotNames st) : ∃ b, lookupFile n st = some b := by
  induction st with
  | nil => simp [snapshotNames] at h
  | cons e st ih =>
    obtain ⟨k, b⟩ := e
    by_cases hk : k = n
    · exact ⟨b, by simp [lookupFile, hk]⟩
    · have hk' : ¬n = k := fun hh => hk hh.symm
      have hcons : snapshotNames ((k, b) :: st) = k :: snapshotNames st := rfl
      have hmem : n ∈ snapshotNames st := by
        rcases List.mem_cons.mp (hcons ▸ h) with hh | hh
        · exact absurd hh hk'
        · exact hh
      obtain ⟨c, hc⟩ := ih hmem
      exact ⟨c, by simp [lookupFile, hk, hc]⟩

/-- C2: individual retrieval deletes exactly on successful transfer. When
the artifact is present: a completed transfer returns its bytes and a
subsequent retrieval (with any transfer outcome) finds nothing; an
interrupted transfer leaves the store unchanged, so a retry succeeds and
returns the bytes. -/
theorem get_once_semantics {β : Type} (st : Store β) (name : FileName)
    (b : β) (h : lookupFile name st = some b) :
    (getOnce st name true).1 = .sent b true ∧
    (∀ ok : Bool, (getOnce (getOnce st name true).2 name ok).1 = .notFound) ∧
    (getOnce st name false).2 = st ∧
    (getOnce (getOnce st name false).2 name true).1 = .sent b true := by
  have h2 : getOnce st name true = (.sent b true, eraseFile name st) := by
    simp [getOnce, h]
  have h3 : getOnce st name false = (.sent b false, st) := by
    simp [getOnce, h]
  refine ⟨by rw [h2], fun ok => ?_, by rw [h3], ?_⟩
  · rw [h2]
    have herased : lookupFile name (eraseFile name st) = none := by
      simp [lookupFile_eraseFile]
    simp [getOnce, herased]
  · rw [h3]
    simp [getOnce, h]

/-- C2 witness: retrieving the stored artifact `"a"` with a completed
transfer returns its blob. -/
theorem get_once_semantics_witness :
    (getOnce [("a".data, (0 : Nat))] "a".data true).1 = .sent 0 true :=
  (get_once_semantics [("a".data, (0 : Nat))] "a".data 0 (by rfl)).1

/-- C5: the bulk download on an empty store answers with a not-found
error; it never hands out an empty archive; and on any store holding at
least one artifact — in particular right after a `putFile` — it succeeds
with an archive. -/
theorem download_all_empty_vs_put {β : Type} (st : Store β)
    (name : FileName) (b : β) :
    (downloadAll ([] : Store β)).1 = .error () ∧
    (∀ arch, (downloadAll st).1 = .ok arch → arch ≠ []) ∧
    (∃ arch, (downloadAll (putFile name b st)).1 = .ok arch) := by
  refine ⟨by rfl, fun arch harch => ?_, ?_⟩
  · rw [downloadAll] at harch
    by_cases hempty : (snapshotNames st).isEmpty
    · simp [hempty] at harch
    · simp only [hempty, Bool.false_eq_true, if_false] at harch
      obtain ⟨n, names, hnames⟩ :
          ∃ n names, snapshotNames st = n :: names := by
        cases hsn : snapshotNames st with
        | nil => rw [hsn] at hempty; simp at hempty
        | cons n names => exact ⟨n, names, rfl⟩
      obtain ⟨c, hc⟩ := lookupFile_of_mem_snapshot st n
        (by rw [hnames]; exact List.mem_cons_self n names)
      have hmem : (n, c) ∈ buildArchive (snapshotNames st) st :=
        (mem_buildArchive _ _ _ _).mpr
          ⟨by rw [hnames]; exact List.mem_cons_self n names, hc⟩
      have harch' : arch = buildArchive (snapshotNames st) st :=
        (Except.ok.injEq .. ▸ harch.symm :)
      exact List.ne_nil_of_mem (harch' ▸ hmem)
  · refine ⟨buildArchive (snapshotNames (putFile name b st)) (putFile name b st), ?_⟩
    have hne : (snapshotNames (putFile name b st)).isEmpty = false := by
      simp [snapshotNames, putFile]
    simp [downloadAll, hne]

/-- C5 witness: a store holding the single artifact `"a"` yields a
non-empty archive. -/
theorem download_all_empty_vs_put_witness :
    ([("a".data, (0 : Nat))] : List (FileName × Nat)) ≠ [] :=
  (download_all_empty_vs_put [("a".data, (0 : Nat))] "b".data 1).2.1
    [("a".data, 0)] (by rfl)

lemma fst_mem_names_of_mem_buildArchive {β : Type} (names : List FileName)
    (st : Store β) (n : FileName)
    (h : n ∈ (buildArchive names st).map Prod.fst) : n ∈ names := by
  rcases List.mem_map.mp h with ⟨⟨m, b⟩, hmb, hfst⟩
  cases hfst
  exact ((mem_buildArchive names st m b).mp hmb).1

/-- C6: the archive build works from the call-time snapshot of names. An
artifact still present at inclusion time enters the archive; a name gone
at inclusion time is skipped (the archive holds only present artifacts);
after finalization exactly the included artifacts are deleted; and a name
outside the snapshot — e.g. an artifact put concurrently after the
snapshot — is neither included nor deleted. -/
theorem archive_snapshot_semantics {β : Type} (names : List FileName)
    (st : Store β) :
    (∀ n b, n ∈ names → lookupFile n st = some b →
      (n, b) ∈ buildArchive names st) ∧
    (∀ n b, (n, b) ∈ buildArchive names st →
      n ∈ names ∧ lookupFile n st = some b) ∧
    (∀ n b, (n, b) ∈ buildArchive names st →
      lookupFile n
        (archiveCleanup ((buildArchive names st).map Prod.fst) st) = none) ∧
    (∀ n, n ∉ names →
      lookupFile n
        (archiveCleanup ((buildArchive names st).map Prod.fst) st) =
        lookupFile n st) := by
  refine ⟨fun n b hn hb => (mem_buildArchive names st n b).mpr ⟨hn, hb⟩,
    fun n b h => (mem_buildArchive names st n b).mp h,
    fun n b h => ?_, fun n hn => ?_⟩
  · have hmem : n ∈ (buildArchive names st).map Prod.fst :=
      List.mem_map.mpr ⟨(n, b), h, rfl⟩
    simp [lookupFile_archiveCleanup, hmem]
  · have hnot : n ∉ (buildArchive names st).map Prod.fst :=
      fun h => hn (fst_mem_names_of_mem_buildArchive names st n h)
    simp [lookupFile_archiveCleanup, hnot]

/-- C6 witness: with snapshot `["a"]` over a store holding `"a"`, the
artifact enters the archive. -/
theorem archive_snapshot_semantics_witness :
    ("a".data, (0 : Nat)) ∈
      buildArchive ["a".data] [("a".data, (0 : Nat))] :=
  (archive_snapshot_semantics ["a".data] [("a".data, (0 : Nat))]).1
    "a".data 0 (by simp) (by rfl)

/-- C7 counterexample: with two stored artifacts and `fs.unlinkSync`
throwing on the first, the cleanup route answers the 500 failure response
— not success — and the second artifact survives: the claim that the
route always reports success and that a per-item failure does not abort
the removal of the remaining artifacts is false of the code, whose single
`try` block aborts the `forEach` at the first exception. -/
theorem cleanup_route_counterexample :
    (cleanupRoute (fun n => n == "a".data)
        [("a".data, (0 : Nat)), ("b".data, 1)]).1 = .failed500 ∧
    lookupFile "b".data
      (cleanupRoute (fun n => n == "a".data)
        [("a".data, (0 : Nat)), ("b".data, 1)]).2 = some 1 := by
  exact ⟨rfl, rfl⟩

lemma cleanupLoop_no_failure {β : Type} (l : List FileName) (st : Store β)
    (hcover : ∀ e ∈ st, e.1 ∈ l) :
    cleanupLoop (fun _ => false) l st = (.cleaned, []) := by
  induction l generalizing st with
  | nil =>
    have : st = [] := by
      cases st with
      | nil => rfl
      | cons e st => exact absurd (hcover e (List.mem_cons_self e st)) (by simp)
    rw [this]
    rfl
  | cons n ns ih =>
    show cleanupLoop (fun _ => false) ns (eraseFile n st) = (.cleaned, [])
    refine ih (eraseFile n st) (fun e he => ?_)
    have he' := List.mem_filter.mp he
    have hne : ¬e.1 = n := by simpa using he'.2
    rcases List.mem_cons.mp (hcover e he'.1) with h | h
    · exact absurd h hne
    · exact h

/-- C7 amended: the cleanup route removes every artifact and reports
success whenever no individual deletion fails — in particular on an empty
store; when an individual deletion does fail, the route reports the 500
failure and the artifacts from the failing one onward remain (the single
`try` block stops the loop at the first exception). -/
theorem cleanup_route_amended {β : Type} (st : Store β) :
    cleanupRoute (fun _ => false) st = (.cleaned, ([] : Store β)) := by
  exact cleanupLoop_no_failure (snapshotNames st) st
    (fun e he => List.mem_map.mpr ⟨e, he, rfl⟩)

/-- An uploaded file as multer's memory storage presents it: the original
name and the in-memory buffer (decoded text). -/
structure UploadFile where
  originalname : List Char
  buffer : List Char
deriving DecidableEq

/-- A parsed rectangular grid, the payload written into an artifact. -/
abbrev Grid := List (List (List Char))

/-- One entry of the `results` array of `POST /upload`: the success
record (original name, converted name) or the error record. -/
inductive Outcome
  | success (originalName convertedName : List Char)
  | failure (originalName : List Char)
deriving DecidableEq

/-- The `req.files.forEach` loop of `POST /upload` (app.js lines 174-211),
`i` being the position of the current file in the batch. Per file: derive
the output name, run `tdsToExcel` on the buffer (parse, encode, write into
the output directory), and push a success or error record. `convFails i`
models `tdsToExcel` returning `false` for the `i`-th file — its internal
`catch` of a parse/encode/write exception — or the per-file `catch`
firing; either way the loop continues with the next file. -/
def runBatch (convFails : Nat → Bool) :
    Nat → List UploadFile → Store Grid → List Outcome × Store Grid
  | _, [], st => ([], st)
  | i, f :: fs, st =>
    let outputFilename := deriveStoredName f.originalname
    if convFails i then
      let r := runBatch convFails (i + 1) fs st
      (.failure f.originalname :: r.1, r.2)
    else
      let r := runBatch convFails (i + 1) fs
        (putFile outputFilename (parseGrid f.buffer) st)
      (.success f.originalname outputFilename :: r.1, r.2)

/-- The `POST /upload` handler (app.js lines 167-214): an empty batch is
rejected with a 400 error before the loop runs; otherwise the loop's
results are returned. -/
def uploadRoute (convFails : Nat → Bool) (files : List UploadFile)
    (st : Store Grid) : Except Unit (List Outcome) × Store Grid :=
  if files.isEmpty then (.error (), st)
  else
    let r := runBatch convFails 0 files st
    (.ok r.1, r.2)

lemma runBatch_length (convFails : Nat → Bool) (k : Nat)
    (files : List UploadFile) (st : Store Grid) :
    (runBatch convFails k files st).1.length = files.length := by
  induction files generalizing k st with
  | nil => rfl
  | cons f fs ih =>
    by_cases hf : convFails k <;>
      simp [runBatch, hf, ih]

lemma runBatch_getElem (convFails : Nat → Bool) (k : Nat)
    (files : List UploadFile) (st : Store Grid) (i : Nat) :
    (runBatch convFails k files st).1[i]? = (files[i]?).map
      (fun f => if convFails (k + i) then Outcome.failure f.originalname
        else Outcome.success f.originalname
          (deriveStoredName f.originalname)) := by
  induction files generalizing k st i with
  | nil => simp [runBatch]
  | cons f fs ih =>
    cases i with
    | zero =>
      by_cases hf : convFails k <;> simp [runBatch, hf]
    | succ j =>
      have hadd : k + (j + 1) = (k + 1) + j := by omega
      by_cases hf : convFails k <;>
        simp [runBatch, hf, ih, hadd]

/-- C4: the upload loop emits exactly one outcome per input file, in input
order; the outcome at each position is determined by that file and its own
conversion result alone, so one file's failure never aborts or alters the
processing of the others. Concretely, a batch `[A, B, C]` in which only
`B` fails yields three outcomes in original order with `A` and `C`
successful and `B` failed. -/
theorem batch_order_and_isolation (convFails : Nat → Bool)
    (files : List UploadFile) (st : Store Grid) :
    ((runBatch convFails 0 files st).1.length = files.length) ∧
    (∀ i : Nat, (runBatch convFails 0 files st).1[i]? = (files[i]?).map
      (fun f => if convFails i then Outcome.failure f.originalname
        else Outcome.success f.originalname
          (deriveStoredName f.originalname))) ∧
    (runBatch (fun i => i == 1) 0
      [⟨"a.txt".data, "1".data⟩, ⟨"b.txt".data, "2".data⟩,
       ⟨"c.txt".data, "3".data⟩] ([] : Store Grid)).1 =
      [.success "a.txt".data "a.xlsx".data,
       .failure "b.txt".data,
       .success "c.txt".data "c.xlsx".data] := by
  refine ⟨runBatch_length convFails 0 files st, fun i => ?_, by rfl⟩
  simpa using runBatch_getElem convFails 0 files st i
